import Mathlib

/-!
# Verification of the `otr` pipeline against its specification

A shallow embedding of the core data model and operations of the `otr`
recording processor (decoder, cut-list engine, cutting planner, pipeline
driver), together with theorems settling the specification claims.

Modelling conventions:
* Rust `usize`/`u64` values that cannot overflow in the modelled code paths
  (frame numbers, microsecond timestamps, byte counts) are modelled as `Nat`.
* Rust `f64` values that arise from parsing decimal text and are only
  compared or added are modelled as `ℚ` (exact for the integer-valued inputs
  used in the theorems below).
* A Rust `panic!` (including out-of-bounds indexing and `unwrap` on `None`)
  is modelled by an outer `Option`: `none` means the code panics.
* Fallible operations returning `anyhow::Result` are modelled with
  `Except String`.
-/

set_option maxRecDepth 40000

namespace Otr

/-! ## Basic helpers shared by several components -/

/-- Rust `str::split(sep)` on a list of characters: splits at every
occurrence of `sep`; adjacent separators and separators at either end
produce empty pieces.  The result is always non-empty. -/
def split_on (sep : Char) : List Char → List (List Char)
  | [] => [[]]
  | c :: rest =>
    if c = sep then [] :: split_on sep rest
    else
      match split_on sep rest with
      | [] => [[c]]
      | h :: t => (c :: h) :: t

theorem split_on_ne_nil (sep : Char) (l : List Char) : split_on sep l ≠ [] := by
  induction l with
  | nil => simp [split_on]
  | cons c rest ih =>
    by_cases h : c = sep
    · simp [split_on, h]
    · simp only [split_on, if_neg h]
      cases hrec : split_on sep rest with
      | nil => simp
      | cons h t => simp

/-- Splitting a list that starts with a separator-free prefix `a` followed by
the separator: the first piece is `a`. -/
theorem split_on_append (sep : Char) (a b : List Char) (ha : ∀ c ∈ a, c ≠ sep) :
    split_on sep (a ++ sep :: b) = a :: split_on sep b := by
  induction a with
  | nil => simp [split_on]
  | cons c rest ih =>
    have hc : c ≠ sep := ha c (by simp)
    have hrest : ∀ x ∈ rest, x ≠ sep := fun x hx => ha x (by simp [hx])
    simp only [List.cons_append, split_on, if_neg hc]
    rw [show rest.append (sep :: b) = rest ++ sep :: b from rfl, ih hrest]

/-- Splitting a list without any separator yields the list itself as the
single piece. -/
theorem split_on_of_not_mem (sep : Char) (a : List Char) (ha : ∀ c ∈ a, c ≠ sep) :
    split_on sep a = [a] := by
  induction a with
  | nil => rfl
  | cons c rest ih =>
    have hc : c ≠ sep := ha c (by simp)
    have hrest : ∀ x ∈ rest, x ≠ sep := fun x hx => ha x (by simp [hx])
    simp only [split_on, if_neg hc, ih hrest]

/-- Number of pieces returned by `split_on` is the number of separators
plus one. -/
theorem split_on_length (sep : Char) (l : List Char) :
    (split_on sep l).length = l.count sep + 1 := by
  induction l with
  | nil => simp [split_on]
  | cons c rest ih =>
    by_cases h : c = sep
    · subst h; simp [split_on, ih, List.count_cons]
    · simp only [split_on, if_neg h]
      cases hrec : split_on sep rest with
      | nil => exact absurd hrec (split_on_ne_nil sep rest)
      | cons hd tl =>
        simp only [List.length_cons]
        rw [hrec] at ih
        simp only [List.length_cons] at ih
        simp [List.count_cons, h, ih]

/-- Value of a decimal digit character. -/
def digit_val (c : Char) : Nat := c.toNat - '0'.toNat

/-- Numeric value of a string of decimal digits (most significant first). -/
def nat_of_digits (l : List Char) : Nat :=
  l.foldl (fun acc c => acc * 10 + digit_val c) 0

/-! ## Decoder core (`src/video/decoding.rs`) -/

/-- `BLOCK_SIZE` from `decoding.rs`. -/
def BLOCK_SIZE : Nat := 8

/-- `MAX_CHUNK_SIZE` from `decoding.rs` (10 MiB). -/
def MAX_CHUNK_SIZE : Nat := 10 * 1024 * 1024

/-- `HEADER_LENGTH = FILETYPE_LENGTH + PREAMBLE_LENGTH` from `decoding.rs`. -/
def HEADER_LENGTH : Nat := 10 + 512

/-- `chunk_sizes` from `decoding.rs`: the sizes of the chunks into which the
payload of `file_size` bytes is partitioned for parallel decoding.  The Rust
code builds `vec![MAX_CHUNK_SIZE; full_chunks]`, then pushes
`remainder / BLOCK_SIZE * BLOCK_SIZE` when non-zero, then
`remainder % BLOCK_SIZE` when non-zero. -/
def chunk_sizes (file_size : Nat) : List Nat :=
  let full_chunks := file_size / MAX_CHUNK_SIZE
  let remainder := file_size % MAX_CHUNK_SIZE
  (List.replicate full_chunks MAX_CHUNK_SIZE ++
      (if remainder / BLOCK_SIZE > 0 then [remainder / BLOCK_SIZE * BLOCK_SIZE] else [])) ++
    (if remainder % BLOCK_SIZE > 0 then [remainder % BLOCK_SIZE] else [])

/-- `decode_chunk` from `decoding.rs`, with the Blowfish-ECB decryption left
abstract (`decrypt`).  A chunk is decrypted only when it holds at least
`BLOCK_SIZE` bytes (the Rust code tests `chunk.capacity()`, which equals the
length for a chunk allocated with `vec![0u8; chunk_size]`); shorter chunks
are returned un-decrypted. -/
def decode_chunk (decrypt : List Nat → List Nat) (chunk : List Nat) : List Nat :=
  if BLOCK_SIZE ≤ chunk.length then decrypt chunk else chunk

/-- The reader loop of `decode_in_parallel`: the payload is consumed
sequentially, one chunk per entry of `chunk_sizes`. -/
def split_sizes : List Nat → List Nat → List (List Nat)
  | [], _ => []
  | sz :: rest, payload => payload.take sz :: split_sizes rest (payload.drop sz)

/-- The output of `decode_in_parallel` on a payload (the bytes after the
522-byte header): each chunk is decoded by `decode_chunk` and the results are
written to the output file in reading order. -/
def decode_payload (decrypt : List Nat → List Nat) (payload : List Nat) : List Nat :=
  ((split_sizes (chunk_sizes payload.length) payload).map (decode_chunk decrypt)).flatten

/-- `params_from_str` from `decoding.rs`: split the decrypted text at `&`,
skip empty pieces, split each piece at `=` and record the first two parts as
a key/value pair.  Indexing `a[1]` panics (modelled by `none`) when a
non-empty piece contains no `=`.  The accumulated map is an association list
with `insert`-replaces-existing semantics (`HashMap::insert`). -/
def assoc_insert (k v : List Char) :
    List (List Char × List Char) → List (List Char × List Char)
  | [] => [(k, v)]
  | (k', v') :: rest => if k' = k then (k, v) :: rest else (k', v') :: assoc_insert k v rest

def params_from_str_go : List (List Char) → List (List Char × List Char) →
    Option (List (List Char × List Char))
  | [], params => some params
  | piece :: rest, params =>
    if piece = [] then params_from_str_go rest params
    else
      match split_on '=' piece with
      | a0 :: a1 :: _ => params_from_str_go rest (assoc_insert a0 a1 params)
      | _ => none

def params_from_str (s : List Char) (must_have : List (List Char)) :
    Option (Except String (List (List Char × List Char))) :=
  match params_from_str_go (split_on '&' s) [] with
  | none => none
  | some params =>
    some (if must_have.all (fun key => (params.lookup key).isSome) then .ok params
      else .error "Parameter could not be extracted")

/-- The hex value of a character, when it is a hexadecimal digit. -/
def hex_digit_val (c : Char) : Option Nat :=
  if '0' ≤ c ∧ c ≤ '9' then some (c.toNat - '0'.toNat)
  else if 'a' ≤ c ∧ c ≤ 'f' then some (c.toNat - 'a'.toNat + 10)
  else if 'A' ≤ c ∧ c ≤ 'F' then some (c.toNat - 'A'.toNat + 10)
  else none

/-- `hex::decode`: decode a character list as hex into bytes; fails on an
odd number of characters or a non-hex character. -/
def hex_decode : List Char → Option (List Nat)
  | [] => some []
  | [_] => none
  | c1 :: c2 :: rest =>
    match hex_digit_val c1, hex_digit_val c2, hex_decode rest with
    | some h, some lo, some bytes => some ((h * 16 + lo) :: bytes)
    | _, _, _ => none

/-- UTF-8 byte length of a string, as computed by Rust `str::len`. -/
def utf8_len (l : List Char) : Nat := (l.map Char.utf8Size).sum

/-- The characters of `hash` kept by `verify_checksum`: those whose index
`i` satisfies `(i + 1) % 3 ≠ 0`, i.e. every third character (index ≡ 2 mod 3)
is dropped. -/
def reduced_chars (l : List Char) : List Char :=
  ((l.enum.filter (fun p => (p.1 + 1) % 3 ≠ 0)).map Prod.snd)

/-- `verify_checksum` from `decoding.rs`: `hash` must be 48 bytes long
(Rust `str::len` counts UTF-8 bytes); every third character is dropped and
the remaining characters are hex-decoded; the result is compared with the
computed MD5 `checksum`. -/
def verify_checksum (checksum : List Nat) (hash : List Char) : Except String Bool :=
  if utf8_len hash ≠ 48 then .error "MD5 hash must be 48 characters long"
  else
    match hex_decode (reduced_chars hash) with
    | none => .error "Could not turn hash into bytes"
    | some reduced_hash => .ok (checksum = reduced_hash)

/-- The checksum-verification tail of `decode_in_parallel` (lines 255-271 of
`decoding.rs`): first the ciphertext hash is checked against `OH`, then the
plaintext hash against `FH`; a `false` comparison or a `verify_checksum`
error aborts with an error. -/
def verify_stage (enc_hash dec_hash : List Nat) (oh fh : List Char) : Except String Unit :=
  match verify_checksum enc_hash oh with
  | .error e => .error e
  | .ok b =>
    if ¬ b then .error "MD5 checksum of encoded video file is not correct"
    else
      match verify_checksum dec_hash fh with
      | .error e => .error e
      | .ok b' =>
        if ¬ b' then .error "MD5 checksum of decoded video file is not correct"
        else .ok ()

/-- The error handling of `decode` around `decode_in_parallel` (lines 97-110
of `decoding.rs`): on an error the partial output file is removed.  The
boolean records whether the output file was removed. -/
def decode_cleanup (r : Except String Unit) : Except String Unit × Bool :=
  match r with
  | .error e => (.error e, true)
  | .ok () => (.ok (), false)

/-! ## Media metadata (`otr-utils/src/cutting/info.rs`)

Frame numbers (`Frame`, a wrapped `usize`) and timestamps (`Time`, a wrapped
`u64` of microseconds) are modelled as `Nat`. -/

/-- Model of Rust `slice::binary_search` on a sorted slice: `.ok i` with
`l.get i = x` when `x` occurs, otherwise `.error i` where `i` is the
insertion point (the number of elements smaller than `x`).  This is the
documented behaviour of the Rust function on sorted input; the metadata
invariants guarantee that `times` and `key_frames` are sorted ascending. -/
def binary_search (l : List Nat) (x : Nat) : Except Nat Nat :=
  if x ∈ l then .ok (l.takeWhile (fun y => y < x)).length
  else .error (l.takeWhile (fun y => y < x)).length

/-- A stream descriptor: index and optional codec name. -/
structure Stream where
  index : Nat
  codec : Option String

/-- `Metadata` from `info.rs`: per-frame timestamps, sorted key-frame
numbers, stream descriptors. -/
structure Metadata where
  times : List Nat
  key_frames : List Nat
  streams : List Stream

namespace Metadata

/-- `has_frames`: true if the video has frames. -/
def has_frames (md : Metadata) : Bool := ¬ md.times.isEmpty

/-- `frame_to_time`: direct index into `times`; fails when the frame is out
of range. -/
def frame_to_time (md : Metadata) (frame : Nat) : Except String Nat :=
  if md.times.length ≤ frame then .error "Video does not contain a frame with this number"
  else .ok (md.times.getD frame 0)

/-- `time_to_frame`: binary search on `times`; on a miss the insertion point
is returned, clamped to the last frame at the end of the table. -/
def time_to_frame (md : Metadata) (time : Nat) : Except String Nat :=
  if md.times.isEmpty then
    .error "Cannot determine frame number since there are no frames"
  else
    .ok (match binary_search md.times time with
      | .ok i => i
      | .error i => if i = md.times.length then i - 1 else i)

/-- `key_frame_less_or_equal_until_limit` from `info.rs`.  Panics (outer
`none`) when `limit > frame`; on a binary-search miss at insertion point `i`
it returns `key_frames[i-1]` when `i > 0` and that key frame is `≥ limit`. -/
def key_frame_less_or_equal_until_limit (md : Metadata) (frame limit : Nat) :
    Option (Option Nat) :=
  if limit > frame then none
  else
    some (match binary_search md.key_frames frame with
      | .ok _ => some frame
      | .error i =>
        if 0 < i ∧ limit ≤ md.key_frames.getD (i - 1) 0 then
          some (md.key_frames.getD (i - 1) 0)
        else none)

/-- `key_frame_greater_or_equal_until_limit` from `info.rs`.  Panics (outer
`none`) when `limit < frame`; on a binary-search miss at insertion point `i`
it returns `key_frames[i+1]` when `i + 1 < key_frames.len()` and that key
frame is `≤ limit`.  (Note the code reads index `i + 1`, not `i`.) -/
def key_frame_greater_or_equal_until_limit (md : Metadata) (frame limit : Nat) :
    Option (Option Nat) :=
  if limit < frame then none
  else
    some (match binary_search md.key_frames frame with
      | .ok _ => some frame
      | .error i =>
        if i + 1 < md.key_frames.length ∧ md.key_frames.getD (i + 1) 0 ≤ limit then
          some (md.key_frames.getD (i + 1) 0)
        else none)

end Metadata

/-! ## Interval algebra (`otr-utils/src/cutting/interval.rs`), frame case -/

/-- `Interval<Frame>`: a pair of frame boundaries.  The Rust field names are
`from`/`to`; `from` is a Lean keyword, hence `fromB`/`toB`. -/
structure FrameInterval where
  fromB : Nat
  toB : Nat
deriving DecidableEq, Repr

/-- `Interval::from_from_to`: constructor normalising the boundary order. -/
def from_from_to (a b : Nat) : FrameInterval :=
  if a < b then ⟨a, b⟩ else ⟨b, a⟩

/-- `Interval::<Frame>::to_key_frames`: the key-frame-aligned sub-interval,
computed from the two bounded key-frame queries.  The outer `Option` models
a panic inside the queries. -/
def to_key_frames (md : Metadata) (iv : FrameInterval) : Option (Option FrameInterval) :=
  match md.key_frame_greater_or_equal_until_limit iv.fromB iv.toB with
  | none => none
  | some none => some none
  | some (some f) =>
    match md.key_frame_less_or_equal_until_limit iv.toB iv.fromB with
    | none => none
    | some none => some none
    | some (some t) => some (some ⟨f, t⟩)

/-! ## Cutting planner (`otr-utils/src/cutting/ffmpeg.rs`) -/

/-- Sub-interval identifier from `ffmpeg.rs` (rendered 1/2/3 in part-file
names). -/
inductive SubIntervalID
  | Pre
  | Main
  | Post
deriving DecidableEq, Repr

/-- Whether a sub-interval is extracted by stream-copy (`copy_interval`) or
by re-encoding (`encode_interval`). -/
inductive ExtractAction
  | copy
  | encode
deriving DecidableEq, Repr

/-- One planned external invocation: which sub-segment, which action, and
the frame interval it covers (the code converts it to time units via
`frame_to_time` just before invoking ffmpeg). -/
structure PlanStep where
  id : SubIntervalID
  action : ExtractAction
  seg : FrameInterval
deriving DecidableEq, Repr

/-- `Interval::to_times` succeeds on a frame interval exactly when both
boundaries index into the timestamp table. -/
def seg_convertible (md : Metadata) (s : FrameInterval) : Bool :=
  s.fromB < md.times.length ∧ s.toB < md.times.length

/-- Check the planned steps in order; the code aborts at the first
sub-interval whose conversion to time units fails. -/
def steps_checked (md : Metadata) : List PlanStep → Except String (List PlanStep)
  | [] => .ok []
  | st :: rest =>
    if seg_convertible md st.seg then
      match steps_checked md rest with
      | .ok sts => .ok (st :: sts)
      | .error e => .error e
    else .error "Could not convert interval into times"

/-- `extract_interval` from `ffmpeg.rs`, reduced to the plan of external
invocations it performs for one requested interval, in order.  With frames
present, the interval (already in frame units) is aligned to key frames:
a re-encoded `Pre` part is emitted when the original `from` lies before the
first aligned key frame, the aligned core is stream-copied as `Main`, and a
re-encoded `Post` part is emitted when the original `to` lies after the last
aligned key frame.  Without a key frame in the interval the whole interval
is re-encoded; without frames it is stream-copied verbatim.  The outer
`Option` models a panic in the key-frame queries.  (The source matches the
result of `from_from_to` against `Some`; the constructor in `interval.rs`
returns the normalised interval unconditionally, so the pattern always
matches.) -/
def extract_interval_plan (md : Metadata) (iv : FrameInterval) :
    Option (Except String (List PlanStep)) :=
  if md.has_frames then
    match to_key_frames md iv with
    | none => none
    | some (some ikf) =>
      some (steps_checked md
        ((if iv.fromB < ikf.fromB then
            [⟨.Pre, .encode, from_from_to iv.fromB (ikf.fromB - 1)⟩]
          else []) ++
         [⟨.Main, .copy, ikf⟩] ++
         (if ikf.toB < iv.toB then
            [⟨.Post, .encode, from_from_to (ikf.toB + 1) iv.toB⟩]
          else [])))
    | some none => some (steps_checked md [⟨.Main, .encode, iv⟩])
  else some (.ok [⟨.Main, .copy, iv⟩])

/-! ## Time-string parsing (`otr-utils/src/cutting/interval.rs`)

The regular expression
`^(?<hours>\d+):(?<mins>[0-5]\d)+:(?<secs>[0-5]\d)+(\.(?<subs>\d{0,6}))*$`
is embedded as an executable matcher.  Its language decomposes along the
(exactly two) colons and the dots of the trailing part:
the hours field is a non-empty digit string, the minutes and seconds fields
are non-empty sequences of groups `[0-5]\d` (note the `+` on the group: the
fields may be longer than one group), and the tail may carry any number of
`.`-prefixed runs of at most six digits (possibly zero digits).  A named
capture of a repeated group holds the text of its last repetition. -/

/-- `([0-5]\d)+`: a non-empty sequence of two-character groups, the first
character in `0..=5`, the second a digit. -/
def pairs05 : List Char → Bool
  | a :: b :: rest =>
    (decide ('0' ≤ a) && decide (a ≤ '5') && b.isDigit) && (rest.isEmpty || pairs05 rest)
  | _ => false

/-- One repetition of `(\.(?<subs>\d{0,6}))` contributes a piece of at most
six digits (possibly none) after a dot. -/
def subs_piece_ok (p : List Char) : Bool := p.all Char.isDigit && p.length ≤ 6

/-- Matcher for `RE_TIME`. -/
def re_time_matches (l : List Char) : Bool :=
  match split_on ':' l with
  | [hrs, mins, rest] =>
    (!hrs.isEmpty && hrs.all Char.isDigit) && pairs05 mins &&
      (match split_on '.' rest with
       | secs :: subs_pieces => pairs05 secs && subs_pieces.all subs_piece_ok
       | [] => false)
  | _ => false

/-- The last two characters of a field; the value captured by a repeated
two-character group. -/
def last_pair (l : List Char) : List Char := l.drop (l.length - 2)

/-- `Time::from_str` from `interval.rs`, reduced to its acceptance behaviour
and its value as an exact rational number of seconds (the Rust code computes
an `f64` and rounds to integer microseconds; the claims below only concern
acceptance).  Returns `none` when the code panics: the sub-second capture
can be the empty string (input such as `"1:00:00."`), and
`"".parse::<f64>().unwrap()` panics.  Rejects (`.error`) when the regular
expression does not match or the hours value is outside `0..=23` (the hours
digit string is parsed as `f64`; for values this small the `Nat` comparison
is exact, and any string whose value is `≥ 24` stays `≥ 24` after rounding). -/
def time_from_str (l : List Char) : Option (Except Unit ℚ) :=
  if ¬ re_time_matches l then some (.error ())
  else
    match split_on ':' l with
    | [hrs, mins, rest] =>
      if ¬ (nat_of_digits hrs ≤ 23) then some (.error ())
      else
        match split_on '.' rest with
        | secs :: subs_pieces =>
          let m := nat_of_digits (last_pair mins)
          let s := nat_of_digits (last_pair secs)
          match subs_pieces.getLast? with
          | none => some (.ok ((nat_of_digits hrs : ℚ) * 3600 + m * 60 + s))
          | some ds =>
            if ds.isEmpty then none
            else
              some (.ok ((nat_of_digits hrs : ℚ) * 3600 + m * 60 + s +
                (nat_of_digits ds : ℚ) / 10 ^ ds.length))
        | [] => some (.error ())
    | _ => some (.error ())

/-- The spec's grammar `H+:MM:SS[.ssssss]`: hours a non-empty digit string
with value in `0..=23`, minutes and seconds exactly two digits with value at
most 59 (first digit `0..=5`), and an optional sub-second part of a dot
followed by one to six digits. -/
def two_digits_le59 (l : List Char) : Prop :=
  ∃ a b, l = [a, b] ∧ '0' ≤ a ∧ a ≤ '5' ∧ b.isDigit = true

def time_grammar_spec (l : List Char) : Prop :=
  ∃ hrs mins secs subs : List Char,
    l = hrs ++ ':' :: (mins ++ ':' :: (secs ++ subs)) ∧
    hrs ≠ [] ∧ hrs.all Char.isDigit = true ∧ nat_of_digits hrs ≤ 23 ∧
    two_digits_le59 mins ∧ two_digits_le59 secs ∧
    (subs = [] ∨ ∃ ds, subs = '.' :: ds ∧ ds ≠ [] ∧ ds.length ≤ 6 ∧ ds.all Char.isDigit = true)

/-! ## Interval-list parsing (`otr-utils/src/cutting/interval.rs`)

`intervals_from_str::<B>` is generic over the boundary type `B`.  The
embedding keeps that genericity: a `BoundaryModel` supplies `B::from_str`
and the length function `Into::<f64>::into(to - from)` used by
`Interval::is_empty` (`len() == 0.0`). -/

structure BoundaryModel (β : Type) where
  /-- `B::from_str` -/
  from_str : List Char → Except String β
  /-- `Into::<f64>::into(to - from)`, as an exact rational; first argument
  is `from`, second is `to`. -/
  len_model : β → β → ℚ

/-- `str::split_inclusive(sep)`: like `split_on` but every piece keeps its
trailing separator, and no empty trailing piece is produced. -/
def split_inclusive (sep : Char) : List Char → List (List Char)
  | [] => []
  | c :: rest =>
    if c = sep then [c] :: split_inclusive sep rest
    else
      match split_inclusive sep rest with
      | [] => [[c]]
      | h :: t => (c :: h) :: t

/-- A character allowed in an interval boundary by
`RE_INTERVAL = ^\[(?<from>[^\[\],]+),(?<to>[^\[\],]+)\]$`. -/
def interval_char_ok (c : Char) : Bool := c ≠ '[' && c ≠ ']' && c ≠ ','

/-- Matcher and capture extraction for `RE_INTERVAL`: the piece must be
`[from,to]` with both captures non-empty and free of brackets and commas. -/
def re_interval_split (p : List Char) : Option (List Char × List Char) :=
  match p with
  | '[' :: rest =>
    if rest.getLast? = some ']' then
      match split_on ',' rest.dropLast with
      | [a, b] =>
        if !a.isEmpty && !b.isEmpty && a.all interval_char_ok && b.all interval_char_ok then
          some (a, b)
        else none
      | _ => none
    else none
  | _ => none

/-- `Interval::<B>::from_str`: match against `RE_INTERVAL` and parse the two
captures with `B::from_str`.  No normalisation of the boundary order takes
place here. -/
def interval_from_str (bm : BoundaryModel β) (p : List Char) : Except String (β × β) :=
  match re_interval_split p with
  | none => .error "is not a valid interval"
  | some (a, b) =>
    match bm.from_str a with
    | .error e => .error e
    | .ok va =>
      match bm.from_str b with
      | .error e => .error e
      | .ok vb => .ok (va, vb)

/-- Matcher for `RE_INTERVALS = ^(?<interval>\[[^\[\],]+,[^\[\],]+\])+$`:
since the bracket characters are excluded from the boundary captures, the
string decomposes uniquely at every `]`; `split_on ']'` must yield one piece
`[from,to` per interval plus a final empty piece. -/
def intervals_piece_ok (p : List Char) : Bool :=
  match p with
  | '[' :: rest =>
    match split_on ',' rest with
    | [a, b] => !a.isEmpty && !b.isEmpty && a.all interval_char_ok && b.all interval_char_ok
    | _ => false
  | _ => false

def re_intervals_matches (l : List Char) : Bool :=
  let ps := split_on ']' l
  decide (2 ≤ ps.length) && ps.getLast? = some [] && ps.dropLast.all intervals_piece_ok

/-- The loop body of `intervals_from_str`: parse each piece produced by
`split_inclusive(']')` as an interval and keep it only when its length is
non-zero (`!interval.is_empty()`). -/
def intervals_from_str_go (bm : BoundaryModel β) :
    List (List Char) → Except String (List (β × β))
  | [] => .ok []
  | p :: rest =>
    match interval_from_str bm p with
    | .error e => .error e
    | .ok (va, vb) =>
      match intervals_from_str_go bm rest with
      | .error e => .error e
      | .ok ivs => .ok (if bm.len_model va vb = 0 then ivs else (va, vb) :: ivs)

/-- `intervals_from_str` from `interval.rs`. -/
def intervals_from_str (bm : BoundaryModel β) (l : List Char) :
    Except String (List (β × β)) :=
  if ¬ re_intervals_matches l then .error "is not a valid list of intervals"
  else intervals_from_str_go bm (split_inclusive ']' l)

/-- Unsigned part of a decimal literal, as an exact rational. -/
def parse_decimal_core (r : List Char) : Option ℚ :=
  match split_on '.' r with
  | [ip] => if ip ≠ [] ∧ ip.all Char.isDigit then some (nat_of_digits ip) else none
  | [ip, fp] =>
    if (ip ≠ [] ∨ fp ≠ []) ∧ ip.all Char.isDigit ∧ fp.all Char.isDigit then
      some ((nat_of_digits ip : ℚ) + (nat_of_digits fp : ℚ) / 10 ^ fp.length)
    else none
  | _ => none

/-- Rust `str::parse::<f64>` on plain decimal literals, as an exact
rational. -/
def parse_decimal (l : List Char) : Option ℚ :=
  match l with
  | '-' :: r => (parse_decimal_core r).map Neg.neg
  | '+' :: r => parse_decimal_core r
  | r => parse_decimal_core r

/-- `Frame::from_str`: parse as `f64`, take the absolute value, truncate to
`usize`.  The model restricts the accepted forms to plain decimal literals
(sign, digits, optional fraction), for which the `f64` value is exact. -/
def frame_from_str (l : List Char) : Except String Nat :=
  match parse_decimal l with
  | some q => .ok ⌊|q|⌋.toNat
  | none => .error "Could not parse a frame number"

/-- Wrapping `usize` subtraction `to - from` (release-build semantics),
converted to `f64` (exact as a rational for the values at hand: the result
is zero iff `to = from`). -/
def frame_len_model (a b : Nat) : ℚ :=
  if a ≤ b then ((b - a : Nat) : ℚ) else (((2 ^ 64 : ℤ) + b - a : ℤ) : ℚ)

def frame_boundary_model : BoundaryModel Nat :=
  { from_str := frame_from_str, len_model := frame_len_model }

/-! ## Cut-list model (`otr-utils/src/cutting/cutlist.rs`) -/

/-- A cut (`Item`): start and end point as `f64`, modelled as exact
rationals (the values arise from parsing decimal text).  The Rust field
names are `start`/`end`; `end` is a Lean keyword, hence `endB`. -/
structure Item where
  start : ℚ
  endB : ℚ
deriving DecidableEq, Repr

/-- A cut list: optional id, and the `HashMap<Kind, Vec<Item>>` of views,
modelled by its two possible entries (`Kind::Frames`, `Kind::Time`). -/
structure Cutlist where
  id : Option Nat
  frames : Option (List Item)
  times : Option (List Item)
deriving DecidableEq, Repr

/-- The inner loop `validate_intervals` of `Cutlist::validate`.  Faithful to
the source: `last_item` is initialised to `None` before the loop and never
re-assigned in the loop body, so the overlap comparison below is never
reached. -/
def validate_intervals_go (last_item : Option Item) : List Item → Except String Unit
  | [] => .ok ()
  | item :: rest =>
    if item.start > item.endB then .error "Start is after end"
    else
      match last_item with
      | some li =>
        if li.endB > item.start then .error "Cut list intervals overlap"
        else validate_intervals_go last_item rest
      | none => validate_intervals_go last_item rest

def validate_intervals (items : List Item) : Except String Unit :=
  validate_intervals_go none items

/-- `Cutlist::validate`: at least one view must be present; when both views
are present their lengths must agree; each present view is checked by
`validate_intervals`. -/
def validate (cl : Cutlist) : Except String Unit :=
  if cl.frames = none ∧ cl.times = none then .error "Cut list does not contain intervals"
  else if (match cl.frames, cl.times with
           | some f, some t => decide (f.length ≠ t.length)
           | _, _ => false) = true then
    .error "Cut list has time and frames intervals, but the number of cuts differ"
  else
    match (match cl.frames with | some f => validate_intervals f | none => .ok ()) with
    | .error e => .error e
    | .ok () =>
      match cl.times with
      | some t => validate_intervals t
      | none => .ok ()

/-- `Kind` from `cutlist.rs`. -/
inductive Kind
  | frames
  | time
deriving DecidableEq, Repr

/-- `cut_str_to_f64`: for `Kind::Frames` an `f64` parse; for `Kind::Time`
the time regular expression with captures `hours`, `mins` (last group),
`secs` (last group) and `subs` (last group, may be empty - in that case the
`expect` on the empty-string parse panics, modelled by `none`).  Unlike
`Time::from_str` there is no range check on the hours. -/
def cut_str_to_f64 (kind : Kind) (l : List Char) : Option (Except String ℚ) :=
  match kind with
  | .frames =>
    match parse_decimal l with
    | some q => some (.ok q)
    | none => some (.error "Could not parse frames cut string to floating point")
  | .time =>
    if ¬ re_time_matches l then some (.error "is not a valid time cut string")
    else
      match split_on ':' l with
      | [hrs, mins, rest] =>
        match split_on '.' rest with
        | secs :: subs_pieces =>
          let m := nat_of_digits (last_pair mins)
          let s := nat_of_digits (last_pair secs)
          match subs_pieces.getLast? with
          | none => some (.ok ((nat_of_digits hrs : ℚ) * 3600 + m * 60 + s))
          | some ds =>
            if ds.isEmpty then none
            else
              some (.ok ((nat_of_digits hrs : ℚ) * 3600 + m * 60 + s +
                (nat_of_digits ds : ℚ) / 10 ^ ds.length))
        | [] => some (.error "is not a valid time cut string")
      | _ => some (.error "is not a valid time cut string")

/-- Scanner for the middle pieces of the comma-split in
`RE_INTERVALS = ^(frames|time):((\[[^,]+,[^,]+\])+)$` (the `cutlist.rs`
version, whose boundary captures `[^,]+` exclude only commas): a piece
between two commas must decompose as `B ++ ']' :: '[' :: A` with `B` and
`A` non-empty.  `brk_split` searches for the `][` seam with a non-empty
tail; the caller strips one leading character for the non-empty head. -/
def brk_split : List Char → Bool
  | ']' :: '[' :: _ :: _ => true
  | _ :: rest => brk_split rest
  | [] => false

def mid_piece_ok (p : List Char) : Bool :=
  match p with
  | _ :: rest => brk_split rest
  | [] => false

/-- Matcher for the interval part (second capture) of the `cutlist.rs`
`RE_INTERVALS`: split at commas; each block `\[[^,]+,[^,]+\]` carries
exactly one comma, so the first piece must be `[` + non-empty head, the
last piece must be non-empty + `]`, and every middle piece must contain a
`][` seam with non-empty text on both sides. -/
def re_cutlist_blocks_matches (l : List Char) : Bool :=
  match split_on ',' l with
  | [] => false
  | [_] => false
  | p0 :: rest =>
    (match p0 with
     | '[' :: a => !a.isEmpty
     | _ => false) &&
    (match rest.getLast? with
     | some pn => decide (2 ≤ pn.length) && pn.getLast? = some ']'
     | none => false) &&
    rest.dropLast.all mid_piece_ok

/-- `str::trim`, restricted to ASCII whitespace. -/
def trim (l : List Char) : List Char :=
  ((l.dropWhile Char.isWhitespace).reverse.dropWhile Char.isWhitespace).reverse

/-- The per-piece loop of `Cutlist::try_from_intervals` over
`caps[2].split(']')`: empty pieces are skipped; otherwise the piece minus
its first character (`interval[1..]`) is split at commas, the first two
parts are the boundary strings (a missing second part makes
`points.next().unwrap_or_else(panic)` panic, modelled by `none`), and an
`Item` is pushed with no emptiness or order check. -/
def try_from_intervals_go (kind : Kind) :
    List (List Char) → Option (Except String (List Item))
  | [] => some (.ok [])
  | p :: rest =>
    if p.isEmpty then try_from_intervals_go kind rest
    else
      match split_on ',' (p.drop 1) with
      | s :: e :: _ =>
        match cut_str_to_f64 kind (trim s) with
        | none => none
        | some (.error err) => some (.error err)
        | some (.ok sv) =>
          match cut_str_to_f64 kind (trim e) with
          | none => none
          | some (.error err) => some (.error err)
          | some (.ok ev) =>
            match try_from_intervals_go kind rest with
            | none => none
            | some (.error err) => some (.error err)
            | some (.ok items) => some (.ok (⟨sv, ev⟩ :: items))
      | _ => none

/-- `Cutlist::try_from_intervals`: match the intervals string against
`^(frames|time):((\[[^,]+,[^,]+\])+)$`, parse the blocks into items of the
one selected view, then validate. -/
def try_from_intervals (l : List Char) : Option (Except String Cutlist) :=
  let kind_blocks : Option (Kind × List Char) :=
    if l.take 7 = "frames:".data ∧ re_cutlist_blocks_matches (l.drop 7) then
      some (.frames, l.drop 7)
    else if l.take 5 = "time:".data ∧ re_cutlist_blocks_matches (l.drop 5) then
      some (.time, l.drop 5)
    else none
  match kind_blocks with
  | none => some (.error "is not a valid intervals string")
  | some (kind, blocks) =>
    match try_from_intervals_go kind (split_on ']' blocks) with
    | none => none
    | some (.error e) => some (.error e)
    | some (.ok items) =>
      let cl : Cutlist :=
        match kind with
        | .frames => { id := none, frames := some items, times := none }
        | .time => { id := none, frames := none, times := some items }
      match validate cl with
      | .error e => some (.error e)
      | .ok () => some (.ok cl)

/-! ## Pipeline driver (`src/main.rs`, `src/video/mod.rs`)

A `Video` is modelled by the fields its ordering and de-duplication use
(`key`, `status`) plus the path; the key type is any linear order (the
source uses a `String` wrapper).  `videos.sort()` is Rust's stable sort;
every stable sort produces the same output for a total preorder, so
insertion sort is a faithful model. -/

/-- `Status` with its order `Encoded < Decoded < Cut`. -/
inductive Status
  | encoded
  | decoded
  | cut
deriving DecidableEq, Repr

/-- The `PartialOrd for Status` implementation from `video/mod.rs`. -/
def status_cmp (a b : Status) : Ordering :=
  if a = b then .eq
  else if a = .cut ∨ (a = .decoded ∧ b = .encoded) then .gt
  else .lt

/-- Numeric rank of a status, for stating maximality. -/
def Status.rank : Status → Nat
  | .encoded => 0
  | .decoded => 1
  | .cut => 2

/-- A video record, with the fields relevant to sorting/de-duplication. -/
structure Video (α : Type) where
  key : α
  status : Status
  path : String
deriving DecidableEq, Repr

/-- The `Ord for Video` implementation from `video/mod.rs`: key ascending,
then status descending. -/
def video_cmp [LinearOrder α] (v1 v2 : Video α) : Ordering :=
  if v1.key < v2.key then .lt
  else if v2.key < v1.key then .gt
  else if status_cmp v1.status v2.status = .gt then .lt
  else if status_cmp v1.status v2.status = .lt then .gt
  else .eq

/-- The sort order induced by `video_cmp` (`a` sorts no later than `b`). -/
def video_le [LinearOrder α] (v1 v2 : Video α) : Prop :=
  video_cmp v1 v2 ≠ .gt

instance [LinearOrder α] : DecidableRel (α := Video α) video_le := fun v1 v2 =>
  inferInstanceAs (Decidable (video_cmp v1 v2 ≠ .gt))

/-- The loop of `Itertools::dedup_by` with the last retained element in
hand: elements matching the retained one (here: equal key) are dropped, the
first non-matching element becomes the new retained element. -/
def dedup_by_go (f : Video α → Video α → Bool) (last : Video α) :
    List (Video α) → List (Video α)
  | [] => []
  | y :: ys => if f y last then dedup_by_go f last ys else y :: dedup_by_go f y ys

/-- `dedup_by` from `main.rs` line 27: remove consecutive records with equal
keys, keeping the first of each run. -/
def dedup_by (f : Video α → Video α → Bool) : List (Video α) → List (Video α)
  | [] => []
  | x :: xs => x :: dedup_by_go f x xs

/-- `video::collect` sorts the collected records with `Ord for Video`;
`process_videos` then drops duplicate keys.  This is the list the stage
transitions iterate over. -/
def process_dedup [LinearOrder α] (videos : List (Video α)) : List (Video α) :=
  dedup_by (fun v1 v2 => v1.key = v2.key) (List.insertionSort video_le videos)

/-! ## Decidability helper -/

instance {ε α : Type} [DecidableEq ε] [DecidableEq α] : DecidableEq (Except ε α)
  | .ok a, .ok b => if h : a = b then .isTrue (by rw [h]) else .isFalse (by simp [h])
  | .ok _, .error _ => .isFalse (by simp)
  | .error _, .ok _ => .isFalse (by simp)
  | .error e, .error f => if h : e = f then .isTrue (by rw [h]) else .isFalse (by simp [h])

/-! ## Concrete instances used by the theorems -/

/-- The metadata of the spec's frame-case cut-plan scenario: 1000 frames,
key frames at 0, 250, 500 and 750. -/
def kf_md : Metadata :=
  { times := (List.range 1000).map (fun i => 40000 * i)
  , key_frames := [0, 250, 500, 750]
  , streams := [] }

/-! ## Claims -/

/-- C1.  The claim states that `key_frame_greater_or_equal_until_limit(f, limit)`
returns the least key frame `k` with `k ≥ f` and `k ≤ limit`.  On the
key-frame list `[0, 250, 500, 750]` with `f = 200`, `limit = 800` the least
such key frame is 250, but the code reads `key_frames[i+1]` instead of
`key_frames[i]` after the binary-search miss and returns `Some(500)`;
with `limit = 300` it returns `None` although 250 qualifies.  This
contradicts the function's own documentation comment. -/
theorem C1_key_frame_ge_skips_least :
    kf_md.key_frame_greater_or_equal_until_limit 200 800 = some (some 500) ∧
    kf_md.key_frame_greater_or_equal_until_limit 200 300 = some none ∧
    (250 ∈ kf_md.key_frames ∧ 200 ≤ 250 ∧ 250 ≤ 800 ∧ 250 ≤ 300 ∧
      ∀ k ∈ kf_md.key_frames, 200 ≤ k → 250 ≤ k) ∧
    (250 : Nat) ≠ 500 := by
  refine ⟨rfl, rfl, ⟨by decide, by decide, by decide, by decide, by decide⟩, by decide⟩

/-- C2.  The claim expects the plan Pre `[200,249]`, Main `[250,750]`,
Post `[751,800]` for the interval `[200,800]` on `kf_md`.  Because of the
off-by-one read in `key_frame_greater_or_equal_until_limit` the aligned
core is computed as `[500,750]`, so the code's plan is Pre `[200,499]`,
Main `[500,750]`, Post `[751,800]`. -/
theorem C2_cut_plan_diverges :
    extract_interval_plan kf_md ⟨200, 800⟩ =
      some (.ok
        [⟨.Pre, .encode, ⟨200, 499⟩⟩, ⟨.Main, .copy, ⟨500, 750⟩⟩,
          ⟨.Post, .encode, ⟨751, 800⟩⟩]) ∧
    ([⟨.Pre, .encode, ⟨200, 499⟩⟩, ⟨.Main, .copy, ⟨500, 750⟩⟩,
        ⟨.Post, .encode, ⟨751, 800⟩⟩] : List PlanStep) ≠
      [⟨.Pre, .encode, ⟨200, 249⟩⟩, ⟨.Main, .copy, ⟨250, 750⟩⟩,
        ⟨.Post, .encode, ⟨751, 800⟩⟩] := by
  exact ⟨rfl, by decide⟩

/-- C3.  The claim states that a cut list with frame view
`[[0,100],[50,200]]` fails validation because of the overlap.  In the
source, `validate_intervals` initialises `last_item` to `None` and never
updates it, so the overlap check is dead code and the list validates
successfully (the overlap is real: the first interval ends at 100, after
the second interval's start 50). -/
theorem C3_overlap_passes_validation :
    validate { id := none, frames := some [⟨0, 100⟩, ⟨50, 200⟩], times := none } = .ok () ∧
    (50 : ℚ) < 100 := by
  exact ⟨rfl, by norm_num⟩

/-! ### C4: payload partition and decoded size -/

theorem split_sizes_append (s1 s2 : List Nat) (p : List Nat) :
    split_sizes (s1 ++ s2) p = split_sizes s1 p ++ split_sizes s2 (p.drop s1.sum) := by
  induction s1 generalizing p with
  | nil => simp [split_sizes]
  | cons sz rest ih =>
    simp only [List.cons_append, List.append_eq, split_sizes, ih, List.drop_drop,
      List.sum_cons, Nat.add_comm]

theorem decode_chunk_length (decrypt : List Nat → List Nat)
    (hdec : ∀ c, (decrypt c).length = c.length) (c : List Nat) :
    (decode_chunk decrypt c).length = c.length := by
  unfold decode_chunk
  split <;> simp [hdec]

theorem decode_chunks_length (decrypt : List Nat → List Nat)
    (hdec : ∀ c, (decrypt c).length = c.length) :
    ∀ (sizes : List Nat) (p : List Nat), sizes.sum ≤ p.length →
      (((split_sizes sizes p).map (decode_chunk decrypt)).flatten).length = sizes.sum := by
  intro sizes
  induction sizes with
  | nil => intro p _; simp [split_sizes]
  | cons sz rest ih =>
    intro p hle
    simp only [List.sum_cons] at hle
    have hsz : sz ≤ p.length := le_trans (Nat.le_add_right _ _) hle
    have hrest : rest.sum ≤ (p.drop sz).length := by
      simp only [List.length_drop]
      omega
    simp only [split_sizes, List.map_cons, List.flatten_cons, List.length_append,
      decode_chunk_length decrypt hdec, List.length_take, ih (p.drop sz) hrest,
      List.sum_cons]
    omega

/-- C4.  The payload of `n = SZ - 522` bytes is partitioned into
`⌊n / C⌋` full chunks of `C = MAX_CHUNK_SIZE` bytes, an optional chunk of
`(n mod C / B) * B` bytes and an optional final chunk of `n mod B` bytes;
the sizes sum to `n`, so for any length-preserving block decryption the
decoded output has exactly `n` bytes, and the final `n mod B` bytes (being
shorter than a block) are emitted un-decrypted. -/
theorem C4_chunk_partition :
    ∀ n : Nat,
      chunk_sizes n =
        (List.replicate (n / MAX_CHUNK_SIZE) MAX_CHUNK_SIZE ++
          (if 0 < n % MAX_CHUNK_SIZE / BLOCK_SIZE then
            [n % MAX_CHUNK_SIZE / BLOCK_SIZE * BLOCK_SIZE] else [])) ++
          (if 0 < n % BLOCK_SIZE then [n % BLOCK_SIZE] else []) ∧
      (chunk_sizes n).sum = n ∧
      ∀ (decrypt : List Nat → List Nat) (payload : List Nat),
        (∀ c, (decrypt c).length = c.length) → payload.length = n →
        (decode_payload decrypt payload).length = n ∧
        (0 < n % BLOCK_SIZE →
          (decode_payload decrypt payload).drop (n - n % BLOCK_SIZE) =
            payload.drop (n - n % BLOCK_SIZE)) := by
  intro n
  have hdvd : BLOCK_SIZE ∣ MAX_CHUNK_SIZE := by
    simp only [BLOCK_SIZE, MAX_CHUNK_SIZE]; norm_num
  have hmm : n % MAX_CHUNK_SIZE % BLOCK_SIZE = n % BLOCK_SIZE :=
    Nat.mod_mod_of_dvd n hdvd
  have hshape : chunk_sizes n =
      (List.replicate (n / MAX_CHUNK_SIZE) MAX_CHUNK_SIZE ++
        (if 0 < n % MAX_CHUNK_SIZE / BLOCK_SIZE then
          [n % MAX_CHUNK_SIZE / BLOCK_SIZE * BLOCK_SIZE] else [])) ++
        (if 0 < n % BLOCK_SIZE then [n % BLOCK_SIZE] else []) := by
    simp only [chunk_sizes, hmm]
  have hsum : (chunk_sizes n).sum = n := by
    rw [hshape]
    simp only [MAX_CHUNK_SIZE, BLOCK_SIZE]
    by_cases hq : 0 < n % (10 * 1024 * 1024) / 8 <;>
      by_cases hr : 0 < n % 8 <;>
        simp [hq, hr, List.sum_append, List.sum_replicate, smul_eq_mul] <;>
          omega
  refine ⟨hshape, hsum, ?_⟩
  intro decrypt payload hdec hlen
  have hlen' : (chunk_sizes payload.length).sum = payload.length := by rw [hlen, hsum]
  constructor
  · have hfl := decode_chunks_length decrypt hdec (chunk_sizes payload.length) payload
      (le_of_eq hlen')
    unfold decode_payload
    rw [hfl, hlen', hlen]
  · intro hr
    -- split the chunk list into the decrypted part and the final short chunk
    set b := n % BLOCK_SIZE with hb
    have hblt : b < BLOCK_SIZE := Nat.mod_lt n (by norm_num [BLOCK_SIZE])
    set A := List.replicate (n / MAX_CHUNK_SIZE) MAX_CHUNK_SIZE ++
      (if 0 < n % MAX_CHUNK_SIZE / BLOCK_SIZE then
        [n % MAX_CHUNK_SIZE / BLOCK_SIZE * BLOCK_SIZE] else []) with hA
    have hsplit : chunk_sizes n = A ++ [b] := by
      rw [hshape, if_pos hr]
    have hAsum : A.sum + b = n := by
      have := hsum
      rw [hsplit] at this
      simpa [List.sum_append] using this
    have hAle : A.sum ≤ payload.length := by omega
    have hdropA : (payload.drop A.sum).length = b := by
      simp only [List.length_drop]; omega
    unfold decode_payload
    rw [hlen, hsplit, split_sizes_append, List.map_append, List.flatten_append]
    have hlast : split_sizes [b] (payload.drop A.sum) = [payload.drop A.sum] := by
      simp only [split_sizes]
      rw [List.take_of_length_le (le_of_eq hdropA)]
    rw [hlast]
    have hshort : decode_chunk decrypt (payload.drop A.sum) = payload.drop A.sum := by
      unfold decode_chunk
      rw [if_neg (by rw [hdropA]; omega)]
    simp only [List.map_cons, List.map_nil, List.flatten_cons, List.flatten_nil,
      List.append_nil, hshort]
    have hflen : (((split_sizes A payload).map (decode_chunk decrypt)).flatten).length =
        A.sum := decode_chunks_length decrypt hdec A payload hAle
    have hnb : n - b = A.sum := by omega
    rw [hnb, ← hflen, List.drop_left]

/-- C4, witness: a 13-byte payload is decoded (here with the identity as
block decryption) to 13 bytes, its final `13 mod 8 = 5` bytes unchanged. -/
theorem C4_chunk_partition_witness :
    (decode_payload (fun c => c) (List.replicate 13 0)).length = 13 ∧
    (decode_payload (fun c => c) (List.replicate 13 0)).drop 8 =
      (List.replicate 13 (0 : Nat)).drop 8 := by
  have h := (C4_chunk_partition 13).2.2 (fun c => c) (List.replicate 13 0)
    (fun _ => rfl) (by simp)
  exact ⟨h.1, h.2 (by decide)⟩

/-! ### C5: checksum verification -/

/-- A 45-character string of UTF-8 length 48: the three two-byte characters
sit at dropped indices (2, 5, 8), so the kept 30 characters are all `'0'`. -/
def odd_hash : List Char :=
  ['0', '0', 'Ā', '0', '0', 'Ā', '0', '0', 'Ā', '0', '0', '0', '0', '0', '0',
   '0', '0', '0', '0', '0', '0', '0', '0', '0', '0', '0', '0', '0', '0', '0',
   '0', '0', '0', '0', '0', '0', '0', '0', '0', '0', '0', '0', '0', '0', '0']

/-- C5, counterexample: the claim says every expected-hash string whose
length is not 48 *characters* makes verification return an error.  The code
checks `hash.len()`, which counts UTF-8 *bytes*: `odd_hash` has 45
characters but 48 bytes, passes the length check, hex-decodes to 15 zero
bytes and yields `Ok(false)` - not an error. -/
theorem C5_char_length_not_checked :
    verify_checksum (List.replicate 16 0) odd_hash = .ok false ∧
    odd_hash.length = 45 ∧ utf8_len odd_hash = 48 := by
  refine ⟨by decide, by decide, by decide⟩

/-- C5, amended: the length check is on the UTF-8 byte length of the hash
string.  With that change the claim holds: a hash of byte length other than
48 is rejected with an error; for a 48-byte hash the verification returns
`true` exactly when dropping the characters at indices ≡ 2 (mod 3) and
hex-decoding the rest yields precisely the computed 16-byte MD5; a `false`
comparison on either fingerprint aborts `decode_in_parallel` with an error,
and `decode` removes the partial output file on any such error. -/
theorem C5_verify_checksum_spec :
    (∀ (checksum : List Nat) (hash : List Char), utf8_len hash ≠ 48 →
      ∃ e, verify_checksum checksum hash = .error e) ∧
    (∀ l, reduced_chars l = (l.enum.filter (fun p => p.1 % 3 ≠ 2)).map Prod.snd) ∧
    (∀ (checksum : List Nat) (hash : List Char), utf8_len hash = 48 →
      (verify_checksum checksum hash = .ok true ↔
        hex_decode (reduced_chars hash) = some checksum)) ∧
    (∀ (enc_hash dec_hash : List Nat) (oh fh : List Char),
      verify_checksum enc_hash oh = .ok false →
      ∃ e, verify_stage enc_hash dec_hash oh fh = .error e) ∧
    (∀ (enc_hash dec_hash : List Nat) (oh fh : List Char),
      verify_checksum enc_hash oh = .ok true →
      verify_checksum dec_hash fh = .ok false →
      ∃ e, verify_stage enc_hash dec_hash oh fh = .error e) ∧
    (∀ e, (decode_cleanup (.error e)).2 = true) := by
  refine ⟨?_, ?_, ?_, ?_, ?_, fun _ => rfl⟩
  · intro checksum hash hne
    exact ⟨_, by unfold verify_checksum; rw [if_pos hne]⟩
  · intro l
    unfold reduced_chars
    congr 1
    apply List.filter_congr
    intro p _
    have : ((p.1 + 1) % 3 ≠ 0) ↔ (p.1 % 3 ≠ 2) := by omega
    simp only [ne_eq, decide_eq_decide]
    omega
  · intro checksum hash h48
    unfold verify_checksum
    rw [if_neg (by simp [h48])]
    cases hdec : hex_decode (reduced_chars hash) with
    | none => simp
    | some bytes =>
      constructor
      · intro h
        simp only [Except.ok.injEq, decide_eq_true_eq] at h
        rw [h]
      · intro h
        simp only [Option.some.injEq] at h
        simp [h]
  · intro enc_hash dec_hash oh fh henc
    refine ⟨"MD5 checksum of encoded video file is not correct", ?_⟩
    unfold verify_stage
    rw [henc]
    simp
  · intro enc_hash dec_hash oh fh henc hdec
    refine ⟨"MD5 checksum of decoded video file is not correct", ?_⟩
    unfold verify_stage
    rw [henc]
    simp only [not_true_eq_false, Bool.false_eq_true, if_false]
    rw [hdec]
    simp

/-- C5, witness: concrete instances of the amended claim: a 2-character
hash is rejected; all-zero fingerprints verify an all-zero MD5; a mismatch
makes the verification stage fail, and the cleanup path removes the partial
output. -/
theorem C5_verify_checksum_spec_witness :
    (∃ e, verify_checksum [] ['a', 'b'] = .error e) ∧
    verify_checksum (List.replicate 16 0) (List.replicate 48 '0') = .ok true ∧
    (∃ e, verify_stage [1] [] (List.replicate 48 '0') (List.replicate 48 '0') = .error e) ∧
    (decode_cleanup (.error "MD5 checksum of encoded video file is not correct")).2 = true := by
  have h := C5_verify_checksum_spec
  refine ⟨h.1 [] ['a', 'b'] (by decide), ?_, ?_, h.2.2.2.2.2 _⟩
  · exact (h.2.2.1 (List.replicate 16 0) (List.replicate 48 '0') (by decide)).mpr (by decide)
  · exact h.2.2.2.1 [1] [] (List.replicate 48 '0') (List.replicate 48 '0') (by decide)

/-! ### C10: parameter extraction -/

theorem params_from_str_go_total (pieces : List (List Char))
    (hp : ∀ p ∈ pieces, p ≠ [] → '=' ∈ p) :
    ∀ params, (params_from_str_go pieces params).isSome := by
  induction pieces with
  | nil => intro params; simp [params_from_str_go]
  | cons p rest ih =>
    intro params
    have hrest : ∀ q ∈ rest, q ≠ [] → '=' ∈ q := fun q hq => hp q (by simp [hq])
    by_cases hemp : p = []
    · simp only [params_from_str_go, if_pos hemp]
      exact ih hrest params
    · have hmem : '=' ∈ p := hp p (by simp) hemp
      have hcount : 0 < p.count '=' := List.count_pos_iff.mpr hmem
      have hlen : 2 ≤ (split_on '=' p).length := by
        rw [split_on_length]; omega
      simp only [params_from_str_go, if_neg hemp]
      cases hsp : split_on '=' p with
      | nil => exact absurd hsp (split_on_ne_nil '=' p)
      | cons a t =>
        cases t with
        | nil => rw [hsp] at hlen; simp at hlen
        | cons b t' => exact ih hrest _

/-- C10.  Parameter extraction from a `key=value&...` string is not total:
the input `"abc"` (a non-empty `&`-token without `=`) makes the indexing
`a[1]` panic, while every input all of whose non-empty `&`-tokens contain
an `=` is processed without panicking. -/
theorem C10_params_from_str_partial :
    params_from_str "abc".data [] = none ∧
    ∀ (s : List Char) (must_have : List (List Char)),
      (∀ p ∈ split_on '&' s, p ≠ [] → '=' ∈ p) →
      (params_from_str s must_have).isSome := by
  refine ⟨by decide, ?_⟩
  intro s must_have hp
  unfold params_from_str
  have h := params_from_str_go_total (split_on '&' s) hp []
  cases hgo : params_from_str_go (split_on '&' s) [] with
  | none => rw [hgo] at h; simp at h
  | some params => simp

/-- C10, witness: the totality direction at the concrete input
`"A=1&B=2&"` (the trailing empty token is skipped, both non-empty tokens
contain `=`). -/
theorem C10_params_from_str_partial_witness :
    (params_from_str "A=1&B=2&".data ["A".data]).isSome := by
  exact C10_params_from_str_partial.2 "A=1&B=2&".data ["A".data] (by decide)

/-! ### C7: zero-length intervals -/

theorem intervals_from_str_go_ne {β : Type} (bm : BoundaryModel β)
    (h0 : ∀ a, bm.len_model a a = 0) :
    ∀ (pieces : List (List Char)) (out : List (β × β)),
      intervals_from_str_go bm pieces = .ok out → ∀ iv ∈ out, iv.1 ≠ iv.2 := by
  intro pieces
  induction pieces with
  | nil =>
    intro out hout
    simp only [intervals_from_str_go, Except.ok.injEq] at hout
    subst hout
    simp
  | cons p rest ih =>
    intro out hout
    simp only [intervals_from_str_go] at hout
    cases hm1 : interval_from_str bm p with
    | error e => rw [hm1] at hout; exact absurd hout (by simp)
    | ok vab =>
      obtain ⟨va, vb⟩ := vab
      rw [hm1] at hout
      cases hm2 : intervals_from_str_go bm rest with
      | error e => rw [hm2] at hout; exact absurd hout (by simp)
      | ok ivs =>
        rw [hm2] at hout
        simp only [Except.ok.injEq] at hout
        subst hout
        by_cases hz : bm.len_model va vb = 0
        · rw [if_pos hz]
          exact ih ivs hm2
        · rw [if_neg hz]
          intro iv hiv
          rcases List.mem_cons.mp hiv with hhd | htl
          · subst hhd
            intro heq
            simp only at heq
            apply hz
            rw [heq]
            exact h0 vb
          · exact ih ivs hm2 iv htl

/-- C7.  The generic intervals parser `intervals_from_str` does drop
zero-length intervals: any interval surviving in its output has
`from ≠ to`, because `is_empty` (`len() == to - from == 0`) holds whenever
the two boundaries are equal.  The cut-list constructor
`Cutlist::try_from_intervals`, however, pushes items without any emptiness
check and `validate` only rejects `start > end`, so the zero-length input
`"frames:[5,5]"` yields a cut list that retains the interval `[5,5]` with
`from = to` - contradicting the claim (and the spec's pinned semantics of
always rejecting empties during parsing). -/
theorem C7_zero_length_intervals :
    (∀ {β : Type} (bm : BoundaryModel β) (l : List Char) (out : List (β × β)),
      (∀ a, bm.len_model a a = 0) →
      intervals_from_str bm l = .ok out → ∀ iv ∈ out, iv.1 ≠ iv.2) ∧
    try_from_intervals "frames:[5,5]".data =
      some (.ok { id := none, frames := some [⟨5, 5⟩], times := none }) := by
  constructor
  · intro β bm l out h0 hout
    unfold intervals_from_str at hout
    split at hout
    · exact absurd hout (by simp)
    · exact intervals_from_str_go_ne bm h0 _ out hout
  · rfl

/-- C7, witness: the drop property of `intervals_from_str` applied to the
frame-boundary model at the input `"[1,1][2,5]"`: the zero-length `[1,1]`
is dropped and the surviving interval has distinct boundaries. -/
theorem C7_zero_length_intervals_witness :
    intervals_from_str frame_boundary_model "[1,1][2,5]".data = .ok [(2, 5)] ∧
    ∀ iv ∈ [((2 : Nat), (5 : Nat))], iv.1 ≠ iv.2 := by
  have heq : intervals_from_str frame_boundary_model "[1,1][2,5]".data = .ok [(2, 5)] := by
    rfl
  refine ⟨heq, ?_⟩
  have h0 : ∀ a : Nat, frame_boundary_model.len_model a a = 0 := by
    intro a
    show frame_len_model a a = 0
    unfold frame_len_model
    rw [if_pos (le_refl a)]
    simp
  exact C7_zero_length_intervals.1 frame_boundary_model "[1,1][2,5]".data [(2, 5)] h0 heq

/-! ### C8: time-to-frame lookup -/

/-- Facts about the insertion point `i = |takeWhile (< t) l|`: every earlier
entry is `< t`, the entry at `i` (when it exists) is `≥ t`, and `i ≤ |l|`. -/
theorem takeWhile_lt_facts (l : List Nat) (t : Nat) :
    (∀ j < (l.takeWhile (fun y => y < t)).length, l.getD j 0 < t) ∧
    ((l.takeWhile (fun y => y < t)).length < l.length →
      t ≤ l.getD (l.takeWhile (fun y => y < t)).length 0) ∧
    (l.takeWhile (fun y => y < t)).length ≤ l.length := by
  induction l with
  | nil => simp
  | cons x xs ih =>
    obtain ⟨ih1, ih2, ih3⟩ := ih
    by_cases hx : x < t
    · simp only [List.takeWhile_cons, decide_eq_true_eq, if_pos hx, List.length_cons]
      refine ⟨?_, ?_, by omega⟩
      · intro j hj
        cases j with
        | zero => simpa using hx
        | succ k =>
          simp only [List.getD_cons_succ]
          exact ih1 k (by omega)
      · intro hlt
        simp only [List.getD_cons_succ]
        exact ih2 (by omega)
    · simp only [List.takeWhile_cons, decide_eq_true_eq, if_neg hx, List.length_nil,
        List.length_cons]
      refine ⟨by omega, ?_, by omega⟩
      intro _
      simp only [List.getD_cons_zero]
      omega

/-- Metadata with two frames at timestamps 0 and 100. -/
def pair_md : Metadata := { times := [0, 100], key_frames := [], streams := [] }

/-- C8, counterexample: the claim says the *closest* frame is returned.  At
timestamp 1 the closest frame is 0 (distance 1 versus 99), but the code
returns the successor frame 1. -/
theorem C8_not_closest :
    pair_md.time_to_frame 1 = .ok 1 ∧
    pair_md.times.getD 0 0 = 0 ∧ pair_md.times.getD 1 0 = 100 ∧
    (1 : Nat) - pair_md.times.getD 0 0 < pair_md.times.getD 1 0 - 1 := by
  refine ⟨rfl, rfl, rfl, by decide⟩

/-- C8, amended: on a non-empty, strictly ascending timestamp table,
`time_to_frame(t)` returns the least frame whose timestamp is `≥ t` when
one exists (in particular the exact frame on an exact hit), and the last
frame when `t` lies past the end of the table. -/
theorem C8_time_to_frame_successor (md : Metadata) (t : Nat)
    (hne : md.times ≠ []) (_hsorted : md.times.Sorted (· < ·)) :
    ∃ r, md.time_to_frame t = .ok r ∧ r < md.times.length ∧
      ((∃ j, j < md.times.length ∧ t ≤ md.times.getD j 0) →
        t ≤ md.times.getD r 0 ∧ ∀ j < r, md.times.getD j 0 < t) ∧
      ((∀ j, j < md.times.length → md.times.getD j 0 < t) →
        r = md.times.length - 1) := by
  obtain ⟨h1, h2, h3⟩ := takeWhile_lt_facts md.times t
  have hemp : md.times.isEmpty = false := by
    cases hti : md.times with
    | nil => exact absurd hti hne
    | cons a l => rfl
  have hpos : 0 < md.times.length := List.length_pos.mpr hne
  unfold Metadata.time_to_frame binary_search
  rw [hemp]
  simp only [Bool.false_eq_true, if_false]
  by_cases hmem : t ∈ md.times
  · rw [if_pos hmem]
    have hi : (md.times.takeWhile (fun y => y < t)).length < md.times.length := by
      rcases Nat.lt_or_ge (md.times.takeWhile (fun y => y < t)).length md.times.length with
        h | h
      · exact h
      · exfalso
        have hieq : (md.times.takeWhile (fun y => y < t)).length = md.times.length := by
          omega
        obtain ⟨k, hk, hkt⟩ := List.mem_iff_getElem.mp hmem
        have := h1 k (by omega)
        rw [List.getD_eq_getElem _ _ hk] at this
        omega
    refine ⟨_, rfl, hi, fun _ => ⟨h2 hi, h1⟩, ?_⟩
    intro hall
    exact absurd (hall _ hi) (not_lt.mpr (h2 hi))
  · rw [if_neg hmem]
    by_cases hieq : (md.times.takeWhile (fun y => y < t)).length = md.times.length
    · refine ⟨md.times.length - 1, ?_, by omega, ?_, fun _ => rfl⟩
      · show Except.ok (if (md.times.takeWhile (fun y => y < t)).length = md.times.length
            then (md.times.takeWhile (fun y => y < t)).length - 1
            else (md.times.takeWhile (fun y => y < t)).length) =
          Except.ok (md.times.length - 1)
        rw [if_pos hieq, hieq]
      · rintro ⟨j, hj, hjt⟩
        exact absurd (h1 j (by omega)) (not_lt.mpr hjt)
    · have hi : (md.times.takeWhile (fun y => y < t)).length < md.times.length := by omega
      refine ⟨(md.times.takeWhile (fun y => y < t)).length, ?_, hi,
        fun _ => ⟨h2 hi, h1⟩, ?_⟩
      · show Except.ok (if (md.times.takeWhile (fun y => y < t)).length = md.times.length
            then (md.times.takeWhile (fun y => y < t)).length - 1
            else (md.times.takeWhile (fun y => y < t)).length) =
          Except.ok (md.times.takeWhile (fun y => y < t)).length
        rw [if_neg hieq]
      · intro hall
        exact absurd (hall _ hi) (not_lt.mpr (h2 hi))

/-- C8, witness: the amended characterisation applied at `pair_md` with
timestamp 5, whose successor frame is 1. -/
theorem C8_time_to_frame_successor_witness :
    ∃ r, pair_md.time_to_frame 5 = .ok r ∧ r < pair_md.times.length := by
  obtain ⟨r, hr, hlt, _, _⟩ := C8_time_to_frame_successor pair_md 5 (by decide)
    (by decide)
  exact ⟨r, hr, hlt⟩

/-! ### C6: time-string acceptance -/

/-- Acceptance: the parse neither rejects nor panics. -/
def is_accepted : Option (Except Unit ℚ) → Bool
  | some (.ok _) => true
  | _ => false

theorem isDigit_ne_colon {c : Char} (h : c.isDigit = true) : c ≠ ':' := by
  intro he; subst he; exact absurd h (by decide)

theorem isDigit_ne_dot {c : Char} (h : c.isDigit = true) : c ≠ '.' := by
  intro he; subst he; exact absurd h (by decide)

theorem le5_ne_colon {c : Char} (h : c ≤ '5') : c ≠ ':' := by
  intro he; subst he; exact absurd h (by decide)

theorem ge0_ne_dot {c : Char} (h : '0' ≤ c) : c ≠ '.' := by
  intro he; subst he; exact absurd h (by decide)

theorem split_colon_of_parts (hrs mins secs subs : List Char)
    (hhrs : ∀ x ∈ hrs, x ≠ ':') (hmins : ∀ x ∈ mins, x ≠ ':')
    (hrest : ∀ x ∈ secs ++ subs, x ≠ ':') :
    split_on ':' (hrs ++ ':' :: (mins ++ ':' :: (secs ++ subs))) =
      [hrs, mins, secs ++ subs] := by
  rw [split_on_append _ _ _ hhrs, split_on_append _ _ _ hmins,
    split_on_of_not_mem _ _ hrest]

/-- The colon-split of a grammar decomposition. -/
theorem time_grammar_colon_split {l : List Char} (h : time_grammar_spec l) :
    ∃ hrs mins secs subs : List Char,
      l = hrs ++ ':' :: (mins ++ ':' :: (secs ++ subs)) ∧
      split_on ':' l = [hrs, mins, secs ++ subs] ∧
      mins.length = 2 := by
  obtain ⟨hrs, mins, secs, subs, heq, hne, hdig, h23, hm, hs, hsub⟩ := h
  obtain ⟨a, b, hmeq, ha0, ha5, hb⟩ := hm
  obtain ⟨c, d, hseq, hc0, hc5, hd⟩ := hs
  have hhrs : ∀ x ∈ hrs, x ≠ ':' := fun x hx =>
    isDigit_ne_colon (List.all_eq_true.mp hdig x hx)
  have hmins : ∀ x ∈ mins, x ≠ ':' := by
    intro x hx
    rw [hmeq] at hx
    rcases List.mem_cons.mp hx with h1 | hx'
    · subst h1; exact le5_ne_colon ha5
    · rcases List.mem_cons.mp hx' with h2 | hx''
      · subst h2; exact isDigit_ne_colon hb
      · exact absurd hx'' (List.not_mem_nil x)
  have hrest : ∀ x ∈ secs ++ subs, x ≠ ':' := by
    intro x hx
    rcases List.mem_append.mp hx with hx1 | hx2
    · rw [hseq] at hx1
      rcases List.mem_cons.mp hx1 with h1 | hx'
      · subst h1; exact le5_ne_colon hc5
      · rcases List.mem_cons.mp hx' with h2 | hx''
        · subst h2; exact isDigit_ne_colon hd
        · exact absurd hx'' (List.not_mem_nil x)
    · rcases hsub with hnil | ⟨ds, hdseq, hdne, hdlen, hddig⟩
      · rw [hnil] at hx2; exact absurd hx2 (List.not_mem_nil x)
      · rw [hdseq] at hx2
        rcases List.mem_cons.mp hx2 with h1 | hx'
        · subst h1; decide
        · exact isDigit_ne_colon (List.all_eq_true.mp hddig x hx')
  have heq' : l = hrs ++ ':' :: (mins ++ ':' :: (secs ++ subs)) := heq
  refine ⟨hrs, mins, secs, subs, heq', ?_, by rw [hmeq]; rfl⟩
  rw [heq']
  exact split_colon_of_parts hrs mins secs subs hhrs hmins hrest

/-- Soundness of the embedded parser for the spec grammar: every grammar
string is accepted. -/
theorem time_grammar_accepted {l : List Char} (h : time_grammar_spec l) :
    is_accepted (time_from_str l) = true := by
  obtain ⟨hrs, mins, secs, subs, heq, hne, hdig, h23, hm, hs, hsub⟩ := h
  obtain ⟨a, b, hmeq, ha0, ha5, hb⟩ := hm
  obtain ⟨c, d, hseq, hc0, hc5, hd⟩ := hs
  have hsplit := time_grammar_colon_split
    ⟨hrs, mins, secs, subs, heq, hne, hdig, h23,
      ⟨a, b, hmeq, ha0, ha5, hb⟩, ⟨c, d, hseq, hc0, hc5, hd⟩, hsub⟩
  obtain ⟨hrs', mins', secs', subs', heq2, hcolon, _⟩ := hsplit
  -- the decomposition in `hcolon` is the one we supplied: recompute it
  have hhrs : ∀ x ∈ hrs, x ≠ ':' := fun x hx =>
    isDigit_ne_colon (List.all_eq_true.mp hdig x hx)
  have hmins : ∀ x ∈ mins, x ≠ ':' := by
    intro x hx
    rw [hmeq] at hx
    rcases List.mem_cons.mp hx with h1 | hx'
    · subst h1; exact le5_ne_colon ha5
    · rcases List.mem_cons.mp hx' with h2 | hx''
      · subst h2; exact isDigit_ne_colon hb
      · exact absurd hx'' (List.not_mem_nil x)
  have hrest : ∀ x ∈ secs ++ subs, x ≠ ':' := by
    intro x hx
    rcases List.mem_append.mp hx with hx1 | hx2
    · rw [hseq] at hx1
      rcases List.mem_cons.mp hx1 with h1 | hx'
      · subst h1; exact le5_ne_colon hc5
      · rcases List.mem_cons.mp hx' with h2 | hx''
        · subst h2; exact isDigit_ne_colon hd
        · exact absurd hx'' (List.not_mem_nil x)
    · rcases hsub with hnil | ⟨ds, hdseq, hdne, hdlen, hddig⟩
      · rw [hnil] at hx2; exact absurd hx2 (List.not_mem_nil x)
      · rw [hdseq] at hx2
        rcases List.mem_cons.mp hx2 with h1 | hx'
        · subst h1; decide
        · exact isDigit_ne_colon (List.all_eq_true.mp hddig x hx')
  have hcolon2 : split_on ':' l = [hrs, mins, secs ++ subs] := by
    rw [heq]
    exact split_colon_of_parts hrs mins secs subs hhrs hmins hrest
  have hsecs_nodot : ∀ x ∈ secs, x ≠ '.' := by
    intro x hx
    rw [hseq] at hx
    rcases List.mem_cons.mp hx with h1 | hx'
    · subst h1; exact ge0_ne_dot hc0
    · rcases List.mem_cons.mp hx' with h2 | hx''
      · subst h2; exact isDigit_ne_dot hd
      · exact absurd hx'' (List.not_mem_nil x)
  have hpairs_mins : pairs05 mins = true := by
    rw [hmeq]
    simp [pairs05, ha0, ha5, hb]
  have hpairs_secs : pairs05 secs = true := by
    rw [hseq]
    simp [pairs05, hc0, hc5, hd]
  have hhrs_ne : hrs.isEmpty = false := by
    cases hrs with
    | nil => exact absurd rfl hne
    | cons y ys => rfl
  -- case split on the sub-second part
  rcases hsub with hnil | ⟨ds, hdseq, hdne, hdlen, hddig⟩
  · have hdot : split_on '.' (secs ++ subs) = [secs] := by
      rw [hnil, List.append_nil]
      exact split_on_of_not_mem '.' secs hsecs_nodot
    have hmatch : re_time_matches l = true := by
      unfold re_time_matches
      rw [hcolon2]
      simp only [hdot, Bool.and_eq_true, List.all_cons, List.all_nil]
      refine ⟨⟨⟨?_, hdig⟩, hpairs_mins⟩, hpairs_secs, trivial⟩
      rw [hhrs_ne]; rfl
    unfold time_from_str
    rw [hmatch]
    simp only [not_true_eq_false, Bool.false_eq_true, if_false]
    rw [hcolon2]
    simp only [hdot]
    rw [if_neg (by simp [h23])]
    simp [is_accepted]
  · have hds_nodot : ∀ x ∈ ds, x ≠ '.' :=
      fun x hx => isDigit_ne_dot (List.all_eq_true.mp hddig x hx)
    have hdot : split_on '.' (secs ++ subs) = [secs, ds] := by
      rw [hdseq]
      rw [split_on_append '.' secs ds hsecs_nodot,
        split_on_of_not_mem '.' ds hds_nodot]
    have hmatch : re_time_matches l = true := by
      unfold re_time_matches
      rw [hcolon2]
      simp only [hdot, Bool.and_eq_true, List.all_cons, List.all_nil]
      refine ⟨⟨⟨?_, hdig⟩, hpairs_mins⟩, hpairs_secs, ?_, trivial⟩
      · rw [hhrs_ne]; rfl
      · simp [subs_piece_ok, hddig, hdlen]
    unfold time_from_str
    rw [hmatch]
    simp only [not_true_eq_false, Bool.false_eq_true, if_false]
    rw [hcolon2]
    simp only [hdot]
    rw [if_neg (by simp [h23])]
    have hds_emp : ds.isEmpty = false := by
      cases ds with
      | nil => exact absurd rfl hdne
      | cons y ys => rfl
    simp [is_accepted, hds_emp]

/-- C6, counterexample: the claim says the parser accepts *exactly* the
grammar `H+:MM:SS[.ssssss]`.  The regular expression's minutes and seconds
groups carry a `+` quantifier, so `"1:0059:00"` - which is not of the
grammar (its minutes field has four digits) - is accepted. -/
theorem C6_accepts_beyond_grammar :
    ¬ time_grammar_spec "1:0059:00".data ∧
    is_accepted (time_from_str "1:0059:00".data) = true := by
  constructor
  · intro h
    obtain ⟨hrs, mins, secs, subs, _, hsp, hlen⟩ := time_grammar_colon_split h
    have hconc : split_on ':' "1:0059:00".data =
        [['1'], ['0', '0', '5', '9'], ['0', '0']] := by decide
    rw [hconc] at hsp
    simp only [List.cons.injEq] at hsp
    rw [← hsp.2.1] at hlen
    simp at hlen
  · decide

/-- C6, amended: the parser accepts every string of the grammar
`H+:MM:SS[.s{1-6}]` (minutes/seconds two digits at most 59, hours 0..23),
rejects `"24:00:00"`, `"1:60:00"` and `"1:00:60"`, and accepts
`"0:00:00.000000"` and `"23:59:59.999999"`; but it is not exact: the
minutes/seconds groups of the underlying regular expression may repeat, so
strings such as `"1:0059:00"` are accepted as well. -/
theorem C6_time_parsing :
    (∀ l, time_grammar_spec l → is_accepted (time_from_str l) = true) ∧
    time_from_str "24:00:00".data = some (.error ()) ∧
    time_from_str "1:60:00".data = some (.error ()) ∧
    time_from_str "1:00:60".data = some (.error ()) ∧
    is_accepted (time_from_str "0:00:00.000000".data) = true ∧
    is_accepted (time_from_str "23:59:59.999999".data) = true ∧
    is_accepted (time_from_str "1:0059:00".data) = true := by
  refine ⟨fun l h => time_grammar_accepted h, by decide, by decide, by decide,
    by decide, by decide, by decide⟩

/-- C6, witness: the grammar membership of `"0:05:30"` and its acceptance
through the amended theorem. -/
theorem C6_time_parsing_witness :
    time_grammar_spec "0:05:30".data ∧
    is_accepted (time_from_str "0:05:30".data) = true := by
  have hg : time_grammar_spec "0:05:30".data := by
    refine ⟨['0'], ['0', '5'], ['3', '0'], [], by decide, by decide, by decide,
      by decide, ⟨'0', '5', rfl, by decide, by decide, by decide⟩,
      ⟨'3', '0', rfl, by decide, by decide, by decide⟩, Or.inl rfl⟩
  exact ⟨hg, C6_time_parsing.1 _ hg⟩

/-! ### C9: driver de-duplication -/

theorem status_cmp_gt_iff (a b : Status) : status_cmp a b = .gt ↔ b.rank < a.rank := by
  cases a <;> cases b <;> decide

theorem status_cmp_lt_iff (a b : Status) : status_cmp a b = .lt ↔ a.rank < b.rank := by
  cases a <;> cases b <;> decide

theorem video_le_iff [LinearOrder α] (v w : Video α) :
    video_le v w ↔ v.key < w.key ∨ (v.key = w.key ∧ w.status.rank ≤ v.status.rank) := by
  unfold video_le video_cmp
  rcases lt_trichotomy v.key w.key with hlt | heq | hgt
  · rw [if_pos hlt]
    simp [hlt]
  · have h1 : ¬ v.key < w.key := by rw [heq]; exact lt_irrefl _
    have h2 : ¬ w.key < v.key := by rw [heq]; exact lt_irrefl _
    rw [if_neg h1, if_neg h2]
    by_cases h3 : status_cmp v.status w.status = .gt
    · rw [if_pos h3]
      constructor
      · intro _
        exact Or.inr ⟨heq, le_of_lt ((status_cmp_gt_iff _ _).mp h3)⟩
      · intro _
        simp
    · by_cases h4 : status_cmp v.status w.status = .lt
      · rw [if_neg h3, if_pos h4]
        constructor
        · intro hc
          exact absurd rfl hc
        · rintro (hlt' | ⟨_, hle⟩)
          · exact absurd hlt' h1
          · have := (status_cmp_lt_iff _ _).mp h4
            omega
      · rw [if_neg h3, if_neg h4]
        constructor
        · intro _
          refine Or.inr ⟨heq, ?_⟩
          by_contra hlt'
          exact h4 ((status_cmp_lt_iff _ _).mpr (by omega))
        · intro _
          simp
  · have h1 : ¬ v.key < w.key := asymm hgt
    rw [if_neg h1, if_pos hgt]
    constructor
    · intro hc
      exact absurd rfl hc
    · rintro (hlt' | ⟨heq', _⟩)
      · exact absurd hlt' h1
      · exact absurd heq' (ne_of_gt hgt)

theorem video_le_refl [LinearOrder α] (v : Video α) : video_le v v :=
  (video_le_iff v v).mpr (Or.inr ⟨rfl, le_refl _⟩)

theorem key_le_of_video_le [LinearOrder α] {v w : Video α} (h : video_le v w) :
    v.key ≤ w.key := by
  rcases (video_le_iff v w).mp h with hlt | ⟨heq, _⟩
  · exact le_of_lt hlt
  · exact le_of_eq heq

instance [LinearOrder α] : IsTotal (Video α) video_le := by
  constructor
  intro a b
  rcases lt_trichotomy a.key b.key with hlt | heq | hgt
  · exact Or.inl ((video_le_iff a b).mpr (Or.inl hlt))
  · rcases le_total b.status.rank a.status.rank with hle | hle
    · exact Or.inl ((video_le_iff a b).mpr (Or.inr ⟨heq, hle⟩))
    · exact Or.inr ((video_le_iff b a).mpr (Or.inr ⟨heq.symm, hle⟩))
  · exact Or.inr ((video_le_iff b a).mpr (Or.inl hgt))

instance [LinearOrder α] : IsTrans (Video α) video_le := by
  constructor
  intro a b c hab hbc
  rcases (video_le_iff a b).mp hab with h1 | ⟨h1, h1r⟩ <;>
    rcases (video_le_iff b c).mp hbc with h2 | ⟨h2, h2r⟩
  · exact (video_le_iff a c).mpr (Or.inl (lt_trans h1 h2))
  · exact (video_le_iff a c).mpr (Or.inl (h2 ▸ h1))
  · exact (video_le_iff a c).mpr (Or.inl (h1 ▸ h2))
  · exact (video_le_iff a c).mpr (Or.inr ⟨h1.trans h2, le_trans h2r h1r⟩)

theorem dedup_go_eq [LinearOrder α] (x : Video α) (xs : List (Video α)) :
    dedup_by_go (fun v1 v2 => v1.key = v2.key) x xs =
      dedup_by (fun v1 v2 => v1.key = v2.key)
        (xs.dropWhile (fun y => y.key = x.key)) := by
  induction xs with
  | nil => rfl
  | cons z zs ih =>
    by_cases hz : z.key = x.key
    · simp only [dedup_by_go, List.dropWhile_cons, decide_eq_true_eq, if_pos hz]
      exact ih
    · simp only [dedup_by_go, List.dropWhile_cons, decide_eq_true_eq, if_neg hz]
      rfl

/-- In a sorted run, every record surviving past the records keyed like the
head has a strictly larger key than the head. -/
theorem key_lt_of_dropWhile [LinearOrder α] (x : Video α) :
    ∀ (xs : List (Video α)), (x :: xs).Pairwise video_le →
      ∀ w ∈ xs.dropWhile (fun y => y.key = x.key), x.key < w.key := by
  intro xs
  induction xs with
  | nil => intro _ w hw; simp at hw
  | cons z zs ih =>
    intro hpw w hw
    have hxz : video_le x z := (List.pairwise_cons.mp hpw).1 z (by simp)
    have hpw_tail : (z :: zs).Pairwise video_le := (List.pairwise_cons.mp hpw).2
    by_cases hz : z.key = x.key
    · rw [List.dropWhile_cons, if_pos (by simp [hz])] at hw
      have hpw' : (x :: zs).Pairwise video_le := by
        refine List.Pairwise.sublist ?_ hpw
        exact List.Sublist.cons₂ x (List.sublist_cons_self z zs)
      exact ih hpw' w hw
    · rw [List.dropWhile_cons, if_neg (by simp [hz])] at hw
      have hxzk : x.key < z.key := by
        rcases (video_le_iff x z).mp hxz with hlt | ⟨heq, _⟩
        · exact hlt
        · exact absurd heq.symm hz
      rcases List.mem_cons.mp hw with hwz | hwzs
      · exact hwz ▸ hxzk
      · have hzw : video_le z w := (List.pairwise_cons.mp hpw_tail).1 w hwzs
        exact lt_of_lt_of_le hxzk (key_le_of_video_le hzw)

theorem dedup_props [LinearOrder α] (n : Nat) :
    ∀ (s : List (Video α)), s.length ≤ n → s.Pairwise video_le →
      (∀ w ∈ dedup_by (fun v1 v2 => v1.key = v2.key) s, w ∈ s) ∧
      (∀ v ∈ s, ∃ w ∈ dedup_by (fun v1 v2 => v1.key = v2.key) s, w.key = v.key) ∧
      (∀ w ∈ dedup_by (fun v1 v2 => v1.key = v2.key) s,
        ∀ v ∈ s, v.key = w.key → v.status.rank ≤ w.status.rank) ∧
      ((dedup_by (fun v1 v2 => v1.key = v2.key) s).map Video.key).Nodup := by
  induction n with
  | zero =>
    intro s hlen _
    have : s = [] := List.length_eq_zero.mp (Nat.le_zero.mp hlen)
    subst this
    simp [dedup_by]
  | succ n ih =>
    intro s hlen hpw
    cases s with
    | nil => simp [dedup_by]
    | cons x xs =>
      have hd : dedup_by (fun v1 v2 => v1.key = v2.key) (x :: xs) =
          x :: dedup_by (fun v1 v2 => v1.key = v2.key)
            (xs.dropWhile (fun y => y.key = x.key)) := by
        simp only [dedup_by]
        rw [dedup_go_eq]
        rfl
      set rest := xs.dropWhile (fun y => y.key = x.key) with hrest_def
      have hsub : rest.Sublist xs := List.dropWhile_sublist _
      have hlen' : rest.length ≤ n := by
        have h1 := hsub.length_le
        simp only [List.length_cons] at hlen
        omega
      have hpw_pair := List.pairwise_cons.mp hpw
      have hpw_rest : rest.Pairwise video_le := List.Pairwise.sublist hsub hpw_pair.2
      obtain ⟨ih1, ih2, ih3, ih4⟩ := ih rest hlen' hpw_rest
      have hkeylt : ∀ w ∈ rest, x.key < w.key := key_lt_of_dropWhile x xs hpw
      rw [hd]
      refine ⟨?_, ?_, ?_, ?_⟩
      · intro w hw
        rcases List.mem_cons.mp hw with hwx | hwrest
        · exact hwx ▸ List.mem_cons_self x xs
        · exact List.mem_cons_of_mem x (hsub.mem (ih1 w hwrest))
      · intro v hv
        rcases List.mem_cons.mp hv with hvx | hvxs
        · exact ⟨x, List.mem_cons_self _ _, by rw [hvx]⟩
        · by_cases hvk : v.key = x.key
          · exact ⟨x, List.mem_cons_self _ _, hvk.symm⟩
          · have hvrest : v ∈ rest := by
              have hsplit := List.takeWhile_append_dropWhile
                (p := fun y => decide (y.key = x.key)) (l := xs)
              rw [← hsplit] at hvxs
              rcases List.mem_append.mp hvxs with hvt | hvd
              · exact absurd (by
                  have := List.mem_takeWhile_imp hvt
                  simpa using this) hvk
              · exact hvd
            obtain ⟨w, hw, hwk⟩ := ih2 v hvrest
            exact ⟨w, List.mem_cons_of_mem x hw, hwk⟩
      · intro w hw v hv hk
        rcases List.mem_cons.mp hw with hwx | hwrest
        · subst hwx
          rcases List.mem_cons.mp hv with hvx | hvxs
          · rw [hvx]
          · have hle : video_le w v := hpw_pair.1 v hvxs
            rcases (video_le_iff w v).mp hle with hlt | ⟨_, hr⟩
            · exfalso
              rw [hk] at hlt
              exact lt_irrefl _ hlt
            · exact hr
        · have hwrest' : w ∈ rest := ih1 w hwrest
          have hxw : x.key < w.key := hkeylt w hwrest'
          rcases List.mem_cons.mp hv with hvx | hvxs
          · exfalso
            rw [hvx] at hk
            exact absurd hk (ne_of_lt hxw)
          · by_cases hvk : v.key = x.key
            · exfalso
              rw [hvk] at hk
              exact absurd hk (ne_of_lt hxw)
            · have hvrest : v ∈ rest := by
                have hsplit := List.takeWhile_append_dropWhile
                  (p := fun y => decide (y.key = x.key)) (l := xs)
                rw [← hsplit] at hvxs
                rcases List.mem_append.mp hvxs with hvt | hvd
                · exact absurd (by
                    have := List.mem_takeWhile_imp hvt
                    simpa using this) hvk
                · exact hvd
              exact ih3 w hwrest v hvrest hk
      · rw [List.map_cons]
        refine List.nodup_cons.mpr ⟨?_, ih4⟩
        intro hmem
        obtain ⟨w, hw, hwk⟩ := List.mem_map.mp hmem
        have : x.key < w.key := hkeylt w (ih1 w hw)
        rw [hwk] at this
        exact lt_irrefl _ this

/-- C9.  After sorting by key ascending / status descending and
de-duplicating by key, exactly one record per key remains; it carries the
maximal status among all input records with that key; removed records are
merely absent from the list (`dedup_by` only drops vector entries - every
surviving record is one of the input records, untouched). -/
theorem C9_dedup_keeps_highest_status [LinearOrder α] (l : List (Video α)) :
    ((process_dedup l).map Video.key).Nodup ∧
    (∀ v ∈ l, ∃ w ∈ process_dedup l, w.key = v.key) ∧
    (∀ w ∈ process_dedup l, ∀ v ∈ l, v.key = w.key →
      v.status.rank ≤ w.status.rank) ∧
    (∀ w ∈ process_dedup l, w ∈ l) := by
  have hpw : (List.insertionSort video_le l).Pairwise video_le :=
    List.sorted_insertionSort video_le l
  obtain ⟨h1, h2, h3, h4⟩ := dedup_props (List.insertionSort video_le l).length
    (List.insertionSort video_le l) (le_refl _) hpw
  unfold process_dedup
  refine ⟨h4, ?_, ?_, ?_⟩
  · intro v hv
    exact h2 v ((List.mem_insertionSort video_le).mpr hv)
  · intro w hw v hv hk
    exact h3 w hw v ((List.mem_insertionSort video_le).mpr hv) hk
  · intro w hw
    exact (List.mem_insertionSort video_le).mp (h1 w hw)

/-- C9, witness: for the same key in Encoded and Cut states only the Cut
record proceeds, and the Encoded record's status is dominated. -/
theorem C9_dedup_keeps_highest_status_witness :
    process_dedup ([⟨1, .encoded, "enc"⟩, ⟨1, .cut, "cut"⟩] : List (Video Nat)) =
      [⟨1, .cut, "cut"⟩] ∧
    (⟨1, .encoded, "enc"⟩ : Video Nat).status.rank ≤
      (⟨1, .cut, "cut"⟩ : Video Nat).status.rank := by
  constructor
  · decide
  · exact (C9_dedup_keeps_highest_status
      ([⟨1, .encoded, "enc"⟩, ⟨1, .cut, "cut"⟩] : List (Video Nat))).2.2.1
      ⟨1, .cut, "cut"⟩ (by decide) ⟨1, .encoded, "enc"⟩ (by decide) rfl

end Otr
